import Mathlib

/-!
Verification development for the obsidian-llm-tagger plugin
(source: src/unnamed/part_001, the plugin main module).

Documents are modelled as lists of characters (`List Char`); the
JavaScript string operations of the source are translated to executable
Lean functions over `List Char`.  Character classes follow the ASCII
fragment of the JavaScript regex classes (`\w` = letters, digits,
underscore; `\s` = ASCII whitespace), which is the fragment every claim
exercises.
-/

set_option maxRecDepth 10000

/-- ASCII whitespace, the fragment of the JavaScript `\s` class (and of
`String.prototype.trim`) exercised by the claims: space, tab, newline,
carriage return, vertical tab, form feed. -/
def isWS (c : Char) : Bool :=
  c == ' ' || c == '\t' || c == '\n' || c == '\r' ||
  c == Char.ofNat 11 || c == Char.ofNat 12

/-- The JavaScript word-character class `\w` = `[A-Za-z0-9_]`. -/
def isWordB (c : Char) : Bool :=
  c.isAlphanum || c == '_'

/-- Word-ness of an optional character; out-of-string counts as non-word,
as in the JavaScript `\b` semantics. -/
def wordOpt : Option Char → Bool
  | none => false
  | some c => isWordB c

/-- Index of the first occurrence of `n` in `s` (leftmost match of a
literal pattern), `none` if `n` does not occur.  The empty needle occurs
at index 0. -/
def findSub (n : List Char) : List Char → Option Nat
  | [] => if n = [] then some 0 else none
  | c :: cs => if n.isPrefixOf (c :: cs) then some 0 else (findSub n cs).map (· + 1)

/-- `String.prototype.includes` for a literal needle. -/
def containsSub (n s : List Char) : Bool :=
  (findSub n s).isSome

/-- `n` occurs verbatim inside `s`. -/
def substringOf (n s : List Char) : Prop :=
  ∃ a b, s = a ++ n ++ b

/-- `dropWhile isWS`, the left half of `String.prototype.trim`. -/
def trimL (l : List Char) : List Char :=
  l.dropWhile isWS

/-- The right half of `String.prototype.trim`. -/
def trimR (l : List Char) : List Char :=
  (l.reverse.dropWhile isWS).reverse

/-- `String.prototype.trim`: strip whitespace from both ends. -/
def trimBoth (l : List Char) : List Char :=
  trimR (trimL l)

/-- The fixed TaggedBlock marker `"---\nLLM-tagged:"`
(src/unnamed/part_001:564). -/
def markerL : List Char :=
  ['-', '-', '-', '\n', 'L', 'L', 'M', '-', 't', 'a', 'g', 'g', 'e', 'd', ':']

/-- Embeds `isAlreadyTagged` (src/unnamed/part_001:562-565):
`content.includes('---\nLLM-tagged:')`. -/
def isAlreadyTagged (content : List Char) : Bool :=
  containsSub markerL content

/-!
## Staleness guard and write frame

Embeds the post-LLM re-read check and conditional write shared by
`addTagsToDocuments` (src/unnamed/part_001:604-618), `autoTagFile`
(209-221), `autoTagFileOnClose` (253-265) and `tagCurrentDocument`
(750-763):

    const currentContent = await this.app.vault.read(file);
    if (currentContent !== initialContent) { ... return/continue; }
    if (taggedContent !== initialContent) {
        await this.app.vault.modify(file, taggedContent);
        this.settings.taggedFiles[file.path] = Date.now();
        ...
    }
-/

/-- Result of one guarded tagging attempt: the content written to the
document store (if any) and whether the TaggingRecord entry for the path
was created/refreshed. -/
structure TagOutcome where
  write : Option (List Char)
  recordUpdated : Bool
  deriving DecidableEq, Repr

/-- The staleness guard and conditional write around one synthesis call:
`initialContent` is the content read before the LLM round-trip,
`currentContent` the content re-read after it resolves, `taggedContent`
the synthesized result. -/
def staleCheckAndWrite (initialContent currentContent taggedContent : List Char) :
    TagOutcome :=
  if currentContent ≠ initialContent then ⟨none, false⟩
  else if taggedContent ≠ initialContent then ⟨some taggedContent, true⟩
  else ⟨none, false⟩

/-- The document's stored content after the attempt: the written content
if a write was issued, otherwise the content it already had. -/
def docAfter (currentContent : List Char) (o : TagOutcome) : List Char :=
  o.write.getD currentContent

/-!
## Exclusion / eligibility filter
-/

/-- One token of the regex compiled from a wildcard exclusion pattern:
a literal character (`.` having been escaped by the source) or `.*`
(expanded from `*`). -/
inductive GTok where
  | lit (c : Char)
  | star
  deriving DecidableEq, Repr

/-- Embeds the glob-to-regex translation of `shouldProcessFile`
(src/unnamed/part_001:527-531): the pattern is lowercased, `.` is
escaped, `*` becomes `.*`.  Characters other than `*` act as literals
(the source escapes only `.`; the claims use patterns free of other
regex metacharacters). -/
def compileGlob (pattern : List Char) : List GTok :=
  pattern.map fun c => if c = '*' then GTok.star else GTok.lit c

/-- Does `f` hold of some suffix of `s` (an unanchored-left regex search)? -/
def anyTail (f : List Char → Bool) : List Char → Bool
  | [] => f []
  | c :: cs => f (c :: cs) || anyTail f cs

/-- Full (anchored) match of a compiled wildcard regex against a string:
`.*` matches any sequence of characters, so `.*R` matches `s` exactly
when `R` matches some suffix of `s`. -/
def globFull : List GTok → List Char → Bool
  | [], s => s.isEmpty
  | GTok.lit _ :: _, [] => false
  | GTok.lit c :: ts, x :: xs => c == x && globFull ts xs
  | GTok.star :: ts, s => anyTail (globFull ts) s

/-- Match of a compiled wildcard regex against some prefix of a string
(used for the `/R/` alternative, which is anchored on neither side). -/
def globPart : List GTok → List Char → Bool
  | [], _ => true
  | GTok.lit _ :: _, [] => false
  | GTok.lit c :: ts, x :: xs => c == x && globPart ts xs
  | GTok.star :: ts, s => anyTail (globPart ts) s

/-- Embeds the test of the regex `^R$|/R$|/R/` built in
`shouldProcessFile` (src/unnamed/part_001:533-534) against the
lowercased file path: whole-path match, path-suffix match after a slash,
or path-internal slash-delimited segment match. -/
def wildcardTest (toks : List GTok) (pathL : List Char) : Bool :=
  globFull toks pathL ||
  anyTail (globFull (GTok.lit '/' :: toks)) pathL ||
  anyTail (globPart (GTok.lit '/' :: (toks ++ [GTok.lit '/']))) pathL

/-- Embeds the exclusion loop of `shouldProcessFile`
(src/unnamed/part_001:521-552): a pattern containing `*` is compiled to
a regex and tested against the lowercased path; otherwise the lowercased
pattern must equal the lowercased basename exactly or occur as a
slash-delimited folder segment of the lowercased path. -/
def isExcluded (path basename : List Char) (excludePatterns : List (List Char)) : Bool :=
  let filePath := path.map Char.toLower
  excludePatterns.any fun pattern =>
    if pattern.contains '*' then
      wildcardTest (compileGlob (pattern.map Char.toLower)) filePath
    else
      let normalizedPattern := pattern.map Char.toLower
      basename.map Char.toLower == normalizedPattern ||
      containsSub ('/' :: normalizedPattern ++ ['/']) filePath

/-- Embeds `shouldProcessFile` (src/unnamed/part_001:519-560).
`lastTagged` is the TaggingRecord entry `settings.taggedFiles[path]`
(`none` when absent; the source treats a stored `0` timestamp like an
absent entry, a case `Date.now()` never produces) and `mtime` is
`file.stat.mtime`. -/
def shouldProcessFile (path basename : List Char) (excludePatterns : List (List Char))
    (lastTagged : Option Nat) (mtime : Nat) : Bool :=
  if isExcluded path basename excludePatterns then false
  else
    match lastTagged with
    | none => true
    | some t => mtime > t

/-!
## Deterministic tag pass
-/

/-- `tag.replace(/^#/, '')`: strip one leading `#` if present. -/
def stripHash (t : List Char) : List Char :=
  match t with
  | c :: rest => if c == '#' then rest else t
  | [] => []

/-- `tag.startsWith('#') ? tag : '#' + tag`: the normalization applied
when a matched tag is added to the set (src/unnamed/part_001:439). -/
def normalizeTag (t : List Char) : List Char :=
  match t with
  | c :: rest => if c == '#' then c :: rest else '#' :: c :: rest
  | [] => ['#']

/-- A JavaScript `\b` between two optional characters: the word-ness on
the two sides differs. -/
def boundaryB (a b : Option Char) : Bool :=
  wordOpt a != wordOpt b

/-- Does the regex `\b t \b` (with `t` a literal) match at the current
position, `prev` being the character just before it?  For empty `t` the
two word boundaries coincide. -/
def matchesHere (prev : Option Char) (t s : List Char) : Bool :=
  match t with
  | [] => boundaryB prev s.head?
  | c :: _ =>
    t.isPrefixOf s && boundaryB prev (some c) &&
    boundaryB t.getLast? ((s.drop t.length).head?)

/-- Search all positions of `s` (including the end-of-string position)
for a `\b t \b` match; `prev` is the character before the current
position. -/
def wwSearch (t : List Char) : Option Char → List Char → Bool
  | prev, [] => matchesHere prev t []
  | prev, c :: cs => matchesHere prev t (c :: cs) || wwSearch t (some c) cs

/-- `new RegExp('\\b' + cleanTag + '\\b', 'i').test(lowerContent)` for a
clean tag free of regex metacharacters (src/unnamed/part_001:437). -/
def wholeWordMatch (t s : List Char) : Bool :=
  wwSearch t none s

/-- Append a tag to the accumulated set unless already present: the
`Set`-insertion of src/unnamed/part_001:439, preserving insertion
order. -/
def insertTag (acc : List (List Char)) (t : List Char) : List (List Char) :=
  if t ∈ acc then acc else acc ++ [t]

/-- One iteration of the matching loop of `addDeterministicTags`
(src/unnamed/part_001:432-441): the tag's leading `#` is stripped and
the result lowercased, then tested as a whole word against the
lowercased content; on a match the normalized tag is inserted into the
set. -/
def detStep (content : List Char) (acc : List (List Char)) (tag : List Char) :
    List (List Char) :=
  let cleanTag := (stripHash tag).map Char.toLower
  if wholeWordMatch cleanTag (content.map Char.toLower) then
    insertTag acc (normalizeTag tag)
  else acc

/-- The matched-tag set of `addDeterministicTags`
(src/unnamed/part_001:429-441), built in vocabulary order starting from
the empty set. -/
def matchedTags (content : List Char) (availableTags : List (List Char)) :
    List (List Char) :=
  availableTags.foldl (detStep content) []

/-- `Array.from(addedTags).join(' ')`. -/
def joinTags : List (List Char) → List Char
  | [] => []
  | [t] => t
  | t :: ts => t ++ ' ' :: joinTags ts

/-- The frontmatter match `content.match(/^---\n[\s\S]*?\n---\n/)`
(src/unnamed/part_001:448), returning the length of the matched leading
block: the content must start with `---\n` and the lazy middle ends at
the first later `\n---\n`. -/
def frontMatterSplit (content : List Char) : Option Nat :=
  if (['-', '-', '-', '\n'] : List Char).isPrefixOf content then
    (findSub ['\n', '-', '-', '-', '\n'] (content.drop 4)).map (fun k => 4 + k + 5)
  else none

/-- Embeds `addDeterministicTags` (src/unnamed/part_001:424-456): if the
matched set is empty the content is returned unchanged; otherwise the
space-joined run of matched tags plus a space is inserted after the
leading frontmatter block when one is present, else at the very start. -/
def addDeterministicTags (content : List Char) (availableTags : List (List Char)) :
    List Char :=
  let addedTags := matchedTags content availableTags
  if addedTags = [] then content
  else
    match frontMatterSplit content with
    | some n => content.take n ++ joinTags addedTags ++ ' ' :: content.drop n
    | none => joinTags addedTags ++ ' ' :: content

/-!
## Tag synthesis (processContentWithOllama)
-/

/-- The exceptions `processContentWithOllama` can throw: no model
selected (src/unnamed/part_001:459-461), or the uncaught `TypeError`
from `data.response.trim()` when the JSON body has no string `response`
field (src/unnamed/part_001:500). -/
inductive TagError where
  | noModelSelected
  | badResponseField
  deriving DecidableEq, Repr

/-- The string returned at src/unnamed/part_001:505-513:
`---\nLLM-tagged: ${timestamp}\n---\n\n${taggedSummary}\n\n---\n\n${processedContent}`. -/
def assembleTagged (timestamp taggedSummary processedContent : List Char) : List Char :=
  markerL ++ (' ' :: (timestamp ++
    (['\n', '-', '-', '-', '\n', '\n'] ++ (taggedSummary ++
      (['\n', '\n', '-', '-', '-', '\n', '\n'] ++ processedContent)))))

/-- Embeds `processContentWithOllama` (src/unnamed/part_001:458-517).
The network call is abstracted by `responseField`, the `response` field
of the parsed JSON body: `some r` when present as a string `r`, `none`
when absent or not a string (in which case `data.response.trim()`
throws); a network or JSON-parse failure likewise surfaces as a thrown
exception before this point and performs no write. -/
def processContentWithOllama (selectedModel : Option (List Char))
    (content : List Char) (availableTags : List (List Char))
    (responseField : Option (List Char)) (timestamp : List Char) :
    Except TagError (List Char) :=
  match selectedModel with
  | none => .error .noModelSelected
  | some _ =>
    if isAlreadyTagged content then .ok content
    else
      let processedContent := addDeterministicTags content availableTags
      match responseField with
      | none => .error .badResponseField
      | some r =>
        let taggedSummary := trimBoth r
        if taggedSummary ≠ [] then
          .ok (assembleTagged timestamp taggedSummary processedContent)
        else .ok processedContent

/-!
## Untagging engine

Embeds the body shared by `untagCurrentDocument`
(src/unnamed/part_001:777-815) and the per-file loop of
`untagAllDocuments` (674-711).
-/

/-- Attempt of the regex `---\nLLM-tagged:[\s\S]*?---\n\n[\s\S]*?\n\n---\n+`
(the `taggedSectionPattern` of src/unnamed/part_001:789) at the current position (`u` is the suffix of the content starting
there).  After the literal marker, the first lazy region ends at the
first occurrence of `---\n\n`, the second at the first following
occurrence of `\n\n---` that is followed by at least one newline, and
the greedy `\n+` then extends over the whole newline run.  Returns the
content remaining after the matched section. -/
def matchTaggedAt (u : List Char) : Option (List Char) :=
  if markerL.isPrefixOf u then
    let r1 := u.drop 15
    (findSub ['-', '-', '-', '\n', '\n'] r1).bind fun j =>
      let r2 := r1.drop (j + 5)
      (findSub ['\n', '\n', '-', '-', '-', '\n'] r2).map fun q =>
        (r2.drop (q + 5)).dropWhile (· == '\n')
  else none

/-- Scan for the leftmost match of the tagged-section regex; `some r`
means a match was found and removing it leaves `r`. -/
def removeTaggedAux : List Char → Option (List Char)
  | [] => none
  | c :: cs =>
    match matchTaggedAt (c :: cs) with
    | some rest => some rest
    | none => (removeTaggedAux cs).map (c :: ·)

/-- `content.replace(taggedSectionPattern, '')`
(src/unnamed/part_001:789-792): remove the leftmost match of the
tagged-section regex, or return the content unchanged when it does not
match. -/
def taggedReplace (content : List Char) : List Char :=
  (removeTaggedAux content).getD content

/-- `/^(#\w+\s*)+/.test(cleanedContent)` (src/unnamed/part_001:800-801):
true exactly when the content starts with `#` followed by a word
character. -/
def hasLeadingHashtagRun : List Char → Bool
  | c :: d :: _ => c == '#' && isWordB d
  | _ => false

/-- `cleanedContent.replace(/^(#\w+\s*)+/, '')`: greedily strip leading
`#word` tokens, each followed by a greedy run of whitespace, for as many
iterations as the pattern admits. -/
def tagRunStrip (s : List Char) : List Char :=
  match s with
  | c :: d :: rest =>
    if c == '#' && isWordB d then
      tagRunStrip ((rest.dropWhile isWordB).dropWhile isWS)
    else s
  | _ => s
termination_by s.length
decreasing_by
  simp only [List.length_cons]
  exact Nat.lt_succ_of_le (Nat.le_succ_of_le
    (Nat.le_trans ((List.dropWhile_sublist isWS).length_le)
      ((List.dropWhile_sublist isWordB).length_le)))

/-- Embeds the untagging body (src/unnamed/part_001:777-805): remove the
TaggedBlock section when the marker is present, then strip a leading
hashtag run and trim; the boolean is `wasModified`. -/
def untagContent (content : List Char) : List Char × Bool :=
  let c1 := if isAlreadyTagged content then taggedReplace content else content
  let m1 := if isAlreadyTagged content then decide (c1 ≠ content) else false
  if hasLeadingHashtagRun c1 then (trimBoth (tagRunStrip c1), true)
  else (c1, m1)

/-- The write performed by the untagging commands
(src/unnamed/part_001:807-815): the cleaned content is written only when
`wasModified` is true. -/
def untagWrite (content : List Char) : Option (List Char) :=
  if (untagContent content).2 then some (untagContent content).1 else none

/-- A well-behaved vocabulary tag: after stripping one optional leading
`#` a non-empty sequence of word characters remains (the `#word` token
shape of the specification). -/
def validTag (t : List Char) : Prop :=
  stripHash t ≠ [] ∧ ∀ c ∈ stripHash t, isWordB c = true

/-- The per-tag deterministic match test of `addDeterministicTags`
(src/unnamed/part_001:432-438), as a standalone predicate. -/
def tagMatchesDet (tag content : List Char) : Bool :=
  wholeWordMatch ((stripHash tag).map Char.toLower) (content.map Char.toLower)

/-- Does a tag consist of `#` followed by something not starting with
another `#` — i.e. does it carry exactly one leading hash? -/
def oneLeadingHash : List Char → Bool
  | '#' :: '#' :: _ => false
  | '#' :: _ => true
  | _ => false

/-- The character immediately before the current search position: the
last character of the part `a` already scanned, or, when `a` is empty,
the character that preceded the scanned region. -/
def prevAt (prev : Option Char) (a : List Char) : Option Char :=
  match a.getLast? with
  | some c => some c
  | none => prev

/-- Declarative whole-word occurrence of a (non-empty, all-word) needle
`t` in `s`: `t` occurs verbatim with no word character adjacent on
either side. -/
def wholeWordOccurs (t s : List Char) : Prop :=
  ∃ a b, s = a ++ t ++ b ∧ wordOpt a.getLast? = false ∧ wordOpt b.head? = false

/-- The literal exclusion pattern `daily` of the claim. -/
def dailyChars : List Char := ['d', 'a', 'i', 'l', 'y']

/-- The wildcard exclusion pattern `templates/*` of the claim. -/
def tplPat : List Char :=
  ['t', 'e', 'm', 'p', 'l', 'a', 't', 'e', 's', '/', '*']

/-- The path segment `/templates/`. -/
def tplSeg : List Char :=
  ['/', 't', 'e', 'm', 'p', 'l', 'a', 't', 'e', 's', '/']

/-- The path `notes/daily-2.md`. -/
def daily2Path : List Char :=
  ['n', 'o', 't', 'e', 's', '/', 'd', 'a', 'i', 'l', 'y', '-', '2', '.', 'm', 'd']

/-- The basename `daily-2`. -/
def daily2Base : List Char := ['d', 'a', 'i', 'l', 'y', '-', '2']

/-- The path `vault/templates2/x.md`. -/
def tpl2Path : List Char :=
  ['v', 'a', 'u', 'l', 't', '/', 't', 'e', 'm', 'p', 'l', 'a', 't', 'e', 's', '2',
   '/', 'x', '.', 'm', 'd']

/-- The path `vault/TEMPLATES/x.md`. -/
def tplUpPath : List Char :=
  ['v', 'a', 'u', 'l', 't', '/', 'T', 'E', 'M', 'P', 'L', 'A', 'T', 'E', 'S',
   '/', 'x', '.', 'm', 'd']

/-- Every element of `A` is a `#word` token: `#` followed by a
non-empty sequence of word characters. -/
def tagListOK (A : List (List Char)) : Prop :=
  ∀ t ∈ A, ∃ w, t = '#' :: w ∧ w ≠ [] ∧ ∀ c ∈ w, isWordB c = true

/-- The frontmatter document `---\nt: x\n---\nml z` used to refute the
round-trip claim. -/
def c3Content : List Char :=
  ['-', '-', '-', '\n', 't', ':', ' ', 'x', '\n', '-', '-', '-', '\n',
   'm', 'l', ' ', 'z']

deriving instance DecidableEq for Except

/-! ## Claims C1, C10, C8 -/

/-- C1 — Staleness abort: if the content re-read after the LLM call
(`B`) differs from the content captured before it (`A`), no write is
issued, the document keeps content `B`, and the TaggingRecord is not
touched; the synthesized result `t` is discarded. -/
theorem C1_staleness_abort (A B t : List Char) (h : B ≠ A) :
    staleCheckAndWrite A B t = ⟨none, false⟩ ∧
    docAfter B (staleCheckAndWrite A B t) = B := by
  have : staleCheckAndWrite A B t = ⟨none, false⟩ := by
    simp [staleCheckAndWrite, h]
  exact ⟨this, by simp [this, docAfter]⟩

theorem C1_staleness_abort_witness :
    staleCheckAndWrite ['a'] ['b'] ['c'] = ⟨none, false⟩ ∧
    docAfter ['b'] (staleCheckAndWrite ['a'] ['b'] ['c']) = ['b'] :=
  C1_staleness_abort ['a'] ['b'] ['c'] (by decide)

/-- C10 — Implicit no-op frame: when synthesis returns content identical
to the initially read content, no write is issued and the TaggingRecord
is not created or refreshed; conversely the record is only ever updated
together with a write whose content differs from the document's current
content. -/
theorem C10_noop_frame (A B t : List Char) :
    (t = A → staleCheckAndWrite A B t = ⟨none, false⟩) ∧
    ((staleCheckAndWrite A B t).recordUpdated = true →
      (staleCheckAndWrite A B t).write = some t ∧ t ≠ B) := by
  constructor
  · intro ht
    subst ht
    by_cases hBA : B = t <;> simp [staleCheckAndWrite, hBA]
  · intro hrec
    unfold staleCheckAndWrite at *
    by_cases hBA : B = A
    · subst hBA
      by_cases htA : t = B <;> simp_all
    · simp_all

theorem C10_noop_frame_witness :
    staleCheckAndWrite ['a'] ['b'] ['a'] = ⟨none, false⟩ :=
  (C10_noop_frame ['a'] ['b'] ['a']).1 rfl

/-- C8 — Eligibility dedup: a document excluded by no pattern is
processed when it has no TaggingRecord entry, and otherwise exactly when
its modification time is strictly greater than the recorded last-tagged
timestamp. -/
theorem C8_eligibility_dedup (path basename : List Char)
    (pats : List (List Char)) (mtime : Nat)
    (h : isExcluded path basename pats = false) :
    shouldProcessFile path basename pats none mtime = true ∧
    (∀ T : Nat, shouldProcessFile path basename pats (some T) mtime =
      decide (mtime > T)) := by
  refine ⟨?_, fun T => ?_⟩ <;> simp [shouldProcessFile, h]

theorem C8_eligibility_dedup_witness :
    shouldProcessFile ['a'] ['a'] [] none 5 = true ∧
    (∀ T : Nat, shouldProcessFile ['a'] ['a'] [] (some T) 5 = decide (5 > T)) :=
  C8_eligibility_dedup ['a'] ['a'] [] 5 (by decide)


/-! ## Basic lemmas about substring search -/

theorem isPrefixOf_append_self (n b : List Char) : n.isPrefixOf (n ++ b) = true :=
  List.isPrefixOf_iff_prefix.mpr (List.prefix_append _ _)

theorem findSub_of_append (n b : List Char) (hn : n ≠ []) :
    findSub n (n ++ b) = some 0 := by
  obtain ⟨d, ds, rfl⟩ := List.exists_cons_of_ne_nil hn
  have hpre : (d :: ds).isPrefixOf ((d :: ds) ++ b) = true := isPrefixOf_append_self _ _
  simp only [List.cons_append] at hpre ⊢
  simp [findSub, hpre]

theorem containsSub_of_append (n b : List Char) (hn : n ≠ []) :
    containsSub n (n ++ b) = true := by
  simp [containsSub, findSub_of_append n b hn]

theorem findSub_some_decomp (n : List Char) :
    ∀ (s : List Char) (i : Nat), findSub n s = some i → ∃ a b, s = a ++ n ++ b := by
  intro s
  induction s with
  | nil =>
    intro i h
    simp only [findSub] at h
    by_cases hn : n = []
    · exact ⟨[], [], by simp [hn]⟩
    · simp [hn] at h
  | cons c cs ih =>
    intro i h
    simp only [findSub] at h
    by_cases hp : n.isPrefixOf (c :: cs)
    · have := List.isPrefixOf_iff_prefix.mp hp
      obtain ⟨b, hb⟩ := this
      exact ⟨[], b, by simp [← hb]⟩
    · simp [hp] at h
      obtain ⟨j, hj, _⟩ := h
      obtain ⟨a, b, hab⟩ := ih j hj
      exact ⟨c :: a, b, by simp [hab]⟩

theorem findSub_isSome_of_decomp (n : List Char) :
    ∀ (a b : List Char), (findSub n (a ++ (n ++ b))).isSome = true := by
  intro a
  induction a with
  | nil =>
    intro b
    by_cases hn : n = []
    · subst hn; cases b <;> simp [findSub, List.isPrefixOf]
    · simp [findSub_of_append n b hn]
  | cons c cs ih =>
    intro b
    by_cases hpre : n.isPrefixOf (c :: (cs ++ (n ++ b))) = true
    · simp [findSub, List.cons_append, hpre]
    · simp [findSub, List.cons_append, hpre, ih b]

/-- `containsSub` decides verbatim occurrence. -/
theorem containsSub_iff (n s : List Char) :
    containsSub n s = true ↔ substringOf n s := by
  constructor
  · intro h
    simp only [containsSub, Option.isSome_iff_exists] at h
    obtain ⟨i, hi⟩ := h
    exact findSub_some_decomp n s i hi
  · rintro ⟨a, b, rfl⟩
    rw [List.append_assoc]
    simpa [containsSub] using findSub_isSome_of_decomp n a b

/-! ## Claim C9 -/

/-- C9 — Untag is safe: content with no TaggedBlock marker and no
leading hashtag run is returned unchanged with `wasModified = false`,
and no write is issued. -/
theorem C9_untag_safe (C : List Char)
    (h1 : isAlreadyTagged C = false)
    (h2 : hasLeadingHashtagRun C = false) :
    untagContent C = (C, false) ∧ untagWrite C = none := by
  have hu : untagContent C = (C, false) := by
    simp [untagContent, h1, h2]
  exact ⟨hu, by simp [untagWrite, hu]⟩

theorem C9_untag_safe_witness :
    untagContent ['h', 'i'] = (['h', 'i'], false) ∧ untagWrite ['h', 'i'] = none :=
  C9_untag_safe ['h', 'i'] (by decide) (by decide)

/-! ## Claim C4 -/

/-- C4 counterexample: with no `response` string in the JSON body the
call fails with a thrown `TypeError` (modelled as
`TagError.badResponseField`) instead of returning the deterministic-pass
output. -/
theorem C4_cex :
    processContentWithOllama (some ['m']) ['h', 'i'] [] none ['T'] =
      Except.error TagError.badResponseField ∧
    processContentWithOllama (some ['m']) ['h', 'i'] [] none ['T'] ≠
      Except.ok (addDeterministicTags ['h', 'i'] []) := by
  decide

/-- C4 amended: a `response` field that is a string trimming to empty
yields the deterministic-pass output unchanged, but an absent (or
non-string) `response` field makes synthesis fail with a thrown error —
no fallback, and no write. -/
theorem C4_response_fallback (m C : List Char) (V : List (List Char))
    (ts : List Char) (h : isAlreadyTagged C = false) :
    processContentWithOllama (some m) C V none ts =
      Except.error TagError.badResponseField ∧
    (∀ r, trimBoth r = [] →
      processContentWithOllama (some m) C V (some r) ts =
        Except.ok (addDeterministicTags C V)) := by
  constructor
  · simp [processContentWithOllama, h]
  · intro r hr
    simp [processContentWithOllama, h, hr]

theorem C4_response_fallback_witness :
    processContentWithOllama (some ['m']) ['h', 'i'] [] none ['T'] =
      Except.error TagError.badResponseField ∧
    processContentWithOllama (some ['m']) ['h', 'i'] [] (some [' ']) ['T'] =
      Except.ok (addDeterministicTags ['h', 'i'] []) :=
  ⟨(C4_response_fallback ['m'] ['h', 'i'] [] ['T'] (by decide)).1,
   (C4_response_fallback ['m'] ['h', 'i'] [] ['T'] (by decide)).2 [' '] (by decide)⟩

/-! ## Claim C2 -/

theorem isAlreadyTagged_assembled (ts sm p : List Char) :
    isAlreadyTagged (assembleTagged ts sm p) = true := by
  unfold isAlreadyTagged assembleTagged
  exact containsSub_of_append markerL _ (by decide)

/-- C2 counterexample: with an empty LLM summary the first synthesis
returns the deterministic-only output, which carries no TaggedBlock
marker, so a second synthesis is not a no-op — it prepends the matched
tag again. -/
theorem C2_cex :
    processContentWithOllama (some ['m'])
        ['I', ' ', 's', 't', 'u', 'd', 'y', ' ', 'm', 'l'] [['m', 'l']]
        (some []) [] =
      Except.ok ['#', 'm', 'l', ' ', 'I', ' ', 's', 't', 'u', 'd', 'y', ' ', 'm', 'l'] ∧
    processContentWithOllama (some ['m'])
        ['#', 'm', 'l', ' ', 'I', ' ', 's', 't', 'u', 'd', 'y', ' ', 'm', 'l'] [['m', 'l']]
        (some []) [] ≠
      Except.ok ['#', 'm', 'l', ' ', 'I', ' ', 's', 't', 'u', 'd', 'y', ' ', 'm', 'l'] := by
  decide

/-- C2 amended: whenever the first synthesis call produced its output
from a non-empty trimmed LLM summary (so the TaggedBlock marker is
present in the output), a second synthesis call on that output is a
no-op, whatever model, response and timestamp the second call sees. -/
theorem C2_marker_idempotence (m mp C : List Char) (V Vp : List (List Char))
    (r ts out : List Char) (rf : Option (List Char)) (tsp : List Char)
    (hr : trimBoth r ≠ [])
    (h : processContentWithOllama (some m) C V (some r) ts = Except.ok out) :
    processContentWithOllama (some mp) out Vp rf tsp = Except.ok out := by
  have hout : isAlreadyTagged out = true := by
    by_cases hC : isAlreadyTagged C = true
    · simp only [processContentWithOllama, hC, if_true] at h
      injection h with h
      rw [← h]; exact hC
    · rw [Bool.not_eq_true] at hC
      simp only [processContentWithOllama, hC, Bool.false_eq_true, if_false, hr,
        if_true, ne_eq, not_false_eq_true] at h
      injection h with h
      rw [← h]; exact isAlreadyTagged_assembled _ _ _
  simp [processContentWithOllama, hout]

theorem C2_marker_idempotence_witness :
    processContentWithOllama (some ['n'])
        (assembleTagged ['T'] ['S'] ['h', 'i']) [] (some ['R']) ['U'] =
      Except.ok (assembleTagged ['T'] ['S'] ['h', 'i']) :=
  C2_marker_idempotence ['m'] ['n'] ['h', 'i'] [] [] ['S'] ['T']
    (assembleTagged ['T'] ['S'] ['h', 'i']) (some ['R']) ['U']
    (by decide) (by decide)

/-! ## Claim C6 -/

theorem insertTag_nodup (acc : List (List Char)) (t : List Char) (h : acc.Nodup) :
    (insertTag acc t).Nodup := by
  unfold insertTag
  by_cases hm : t ∈ acc
  · simp [hm, h]
  · simp only [hm, if_false]
    refine List.Nodup.append h (List.nodup_singleton t) ?_
    intro a ha hb
    simp only [List.mem_singleton] at hb
    exact hm (hb ▸ ha)

theorem mem_insertTag {acc : List (List Char)} {t x : List Char}
    (h : x ∈ insertTag acc t) : x ∈ acc ∨ x = t := by
  unfold insertTag at h
  by_cases hm : t ∈ acc
  · simp only [hm, if_true] at h
    exact Or.inl h
  · simp only [hm, if_false, List.mem_append, List.mem_singleton] at h
    exact h

theorem foldl_detStep_nodup (C : List Char) (l : List (List Char)) :
    ∀ acc : List (List Char), acc.Nodup → (l.foldl (detStep C) acc).Nodup := by
  induction l with
  | nil => intro acc h; exact h
  | cons t ts ih =>
    intro acc h
    simp only [List.foldl_cons]
    apply ih
    unfold detStep
    by_cases hc : wholeWordMatch ((stripHash t).map Char.toLower)
        (C.map Char.toLower) = true
    · simpa [hc] using insertTag_nodup acc (normalizeTag t) h
    · simpa [hc] using h

theorem foldl_detStep_mem (C : List Char) (l : List (List Char)) :
    ∀ (acc : List (List Char)) (x : List Char), x ∈ l.foldl (detStep C) acc →
      x ∈ acc ∨ ∃ v ∈ l, x = normalizeTag v := by
  induction l with
  | nil => intro acc x h; exact Or.inl h
  | cons t ts ih =>
    intro acc x h
    simp only [List.foldl_cons] at h
    rcases ih _ x h with h1 | ⟨v, hv, hx⟩
    · unfold detStep at h1
      by_cases hc : wholeWordMatch ((stripHash t).map Char.toLower)
          (C.map Char.toLower) = true
      · simp only [hc, if_true] at h1
        rcases mem_insertTag h1 with h2 | h2
        · exact Or.inl h2
        · exact Or.inr ⟨t, List.mem_cons_self t ts, h2⟩
      · simp only [hc, if_false] at h1
        exact Or.inl h1
    · exact Or.inr ⟨v, List.mem_cons_of_mem t hv, hx⟩

theorem normalizeTag_head (v : List Char) : (normalizeTag v).head? = some '#' := by
  unfold normalizeTag
  split
  · rename_i c rest
    by_cases hc : (c == '#') = true
    · have : c = '#' := by simpa using hc
      simp [hc, this]
    · simp [hc]
  · rfl

/-- C6 counterexample: the vocabulary tag `##ml` matches the content
`x#ml` (its `#`-stripped form `#ml` occurs with word boundaries), is
kept verbatim by the normalization, and is therefore inserted with two
leading hashes — not "exactly one leading `#`". -/
theorem C6_cex :
    matchedTags ['x', '#', 'm', 'l'] [['#', '#', 'm', 'l']] = [['#', '#', 'm', 'l']] ∧
    addDeterministicTags ['x', '#', 'm', 'l'] [['#', '#', 'm', 'l']] =
      ['#', '#', 'm', 'l', ' ', 'x', '#', 'm', 'l'] ∧
    oneLeadingHash ['#', '#', 'm', 'l'] = false := by
  decide

/-- C6 amended: when the matched set is empty the content is unchanged;
when it is non-empty the matched tags — deduplicated as a set (so a tag
listed both with and without `#` appears once) and each normalized to
carry a leading `#` (one is added when absent; a tag already starting
with `#` is kept verbatim, so several leading hashes survive) — are
inserted as one space-joined run immediately after a leading frontmatter
block, or at the very start when there is none. -/
theorem C6_deterministic_insertion (C : List Char) (V : List (List Char)) :
    (matchedTags C V).Nodup ∧
    (∀ t ∈ matchedTags C V, (∃ v ∈ V, t = normalizeTag v) ∧ t.head? = some '#') ∧
    (matchedTags C V = [] → addDeterministicTags C V = C) ∧
    (matchedTags C V ≠ [] →
      addDeterministicTags C V =
        match frontMatterSplit C with
        | some n => C.take n ++ joinTags (matchedTags C V) ++ ' ' :: C.drop n
        | none => joinTags (matchedTags C V) ++ ' ' :: C) := by
  refine ⟨foldl_detStep_nodup C V [] List.nodup_nil, ?_, ?_, ?_⟩
  · intro t ht
    rcases foldl_detStep_mem C V [] t ht with h | ⟨v, hv, hx⟩
    · simp at h
    · exact ⟨⟨v, hv, hx⟩, hx ▸ normalizeTag_head v⟩
  · intro h
    simp [addDeterministicTags, h]
  · intro h
    simp only [addDeterministicTags, h, if_false]

theorem C6_deterministic_insertion_witness :
    ((matchedTags ['m', 'l'] [['m', 'l'], ['#', 'm', 'l']]).Nodup ∧
      ∀ t ∈ matchedTags ['m', 'l'] [['m', 'l'], ['#', 'm', 'l']],
        t.head? = some '#') ∧
    addDeterministicTags ['x'] [] = ['x'] ∧
    addDeterministicTags ['m', 'l'] [['m', 'l'], ['#', 'm', 'l']] =
      joinTags (matchedTags ['m', 'l'] [['m', 'l'], ['#', 'm', 'l']]) ++ ' ' :: ['m', 'l'] := by
  refine ⟨⟨(C6_deterministic_insertion ['m', 'l'] [['m', 'l'], ['#', 'm', 'l']]).1,
    fun t ht => ((C6_deterministic_insertion ['m', 'l'] [['m', 'l'], ['#', 'm', 'l']]).2.1 t ht).2⟩,
    (C6_deterministic_insertion ['x'] []).2.2.1 (by decide), ?_⟩
  have h := (C6_deterministic_insertion ['m', 'l'] [['m', 'l'], ['#', 'm', 'l']]).2.2.2 (by decide)
  simpa [show frontMatterSplit ['m', 'l'] = none by decide] using h

/-! ## Claim C5 -/

theorem globFull_star_any (l : List Char) : globFull [GTok.star] l = true := by
  have h : ∀ m : List Char, anyTail (fun x : List Char => x.isEmpty) m = true := by
    intro m
    induction m with
    | nil => rfl
    | cons c cs ih => simp [anyTail, ih]
  simp [globFull, h]

theorem globFull_lits_star : ∀ (cs b : List Char),
    globFull (cs.map GTok.lit ++ [GTok.star]) (cs ++ b) = true := by
  intro cs
  induction cs with
  | nil => intro b; simpa using globFull_star_any b
  | cons c ct ih => intro b; simp [globFull, ih b]

theorem anyTail_of_self (f : List Char → Bool) (u : List Char) (h : f u = true) :
    anyTail f u = true := by
  cases u <;> simp [anyTail, h]

theorem anyTail_of_decomp (f : List Char → Bool) (a u : List Char) (h : f u = true) :
    anyTail f (a ++ u) = true := by
  induction a with
  | nil => simpa using anyTail_of_self f u h
  | cons c cs ih => simp [anyTail, ih]

theorem excluded_of_tpl_segment (path base : List Char)
    (h : containsSub tplSeg (path.map Char.toLower) = true) :
    isExcluded path base [tplPat] = true := by
  obtain ⟨a, b, hab⟩ := (containsSub_iff _ _).mp h
  have hcomp : GTok.lit '/' :: compileGlob (tplPat.map Char.toLower) =
      tplSeg.map GTok.lit ++ [GTok.star] := by decide
  have hglob : globFull (GTok.lit '/' :: compileGlob (tplPat.map Char.toLower))
      (tplSeg ++ b) = true := by
    rw [hcomp]; exact globFull_lits_star tplSeg b
  have hsufx : anyTail (globFull (GTok.lit '/' :: compileGlob (tplPat.map Char.toLower)))
      (path.map Char.toLower) = true := by
    rw [hab, List.append_assoc]
    exact anyTail_of_decomp _ a _ hglob
  have hstar : tplPat.contains '*' = true := by decide
  unfold isExcluded
  simp [hstar, wildcardTest, hsufx]
  exact Or.inl (by decide)

/-- C5 — Exclusion matching, as far as it holds: the literal pattern
`daily` excludes any document whose lowercased basename is `daily`
(hence matching is case-insensitive on the basename) but not the
document `notes/daily-2.md` with basename `daily-2`; the wildcard
pattern `templates/*` excludes every path whose lowercased form contains
a `/templates/` segment (hence also the uppercased `vault/TEMPLATES/x.md`)
but not `vault/templates2/x.md`. -/
theorem C5_exclusion_matching :
    (∀ (path base : List Char) (rec : Option Nat) (mt : Nat),
      base.map Char.toLower = dailyChars →
      shouldProcessFile path base [dailyChars] rec mt = false) ∧
    shouldProcessFile daily2Path daily2Base [dailyChars] none 5 = true ∧
    (∀ (path base : List Char) (rec : Option Nat) (mt : Nat),
      containsSub tplSeg (path.map Char.toLower) = true →
      shouldProcessFile path base [tplPat] rec mt = false) ∧
    shouldProcessFile tpl2Path ['x'] [tplPat] none 5 = true ∧
    shouldProcessFile tplUpPath ['x'] [tplPat] none 5 = false := by
  refine ⟨?_, by decide, ?_, by decide, by decide⟩
  · intro path base rec mt hb
    have h1 : dailyChars.contains '*' = false := by decide
    have h2 : dailyChars.map Char.toLower = dailyChars := by decide
    have hex : isExcluded path base [dailyChars] = true := by
      unfold isExcluded
      simp [h1, h2, hb]
      exact Or.inl (by decide)
    simp [shouldProcessFile, hex]
  · intro path base rec mt hseg
    have hex := excluded_of_tpl_segment path base hseg
    simp [shouldProcessFile, hex]

theorem C5_exclusion_matching_witness :
    shouldProcessFile ['a', '/', 'D', 'A', 'I', 'L', 'Y', '.', 'x']
        ['D', 'A', 'I', 'L', 'Y'] [dailyChars] none 5 = false ∧
    shouldProcessFile ['a', '/', 't', 'e', 'm', 'p', 'l', 'a', 't', 'e', 's', '/', 'x']
        ['x'] [tplPat] (some 9) 4 = false :=
  ⟨(C5_exclusion_matching).1 _ _ none 5 (by decide),
   (C5_exclusion_matching).2.2.1 _ _ (some 9) 4 (by decide)⟩

/-! ## Claim C7 -/

theorem prevAt_cons (prev : Option Char) (c : Char) (a : List Char) :
    prevAt prev (c :: a) = prevAt (some c) a := by
  unfold prevAt
  cases a with
  | nil => rfl
  | cons d r =>
    rw [List.getLast?_cons_cons]
    cases hgl : (d :: r).getLast? with
    | none => simp [List.getLast?_eq_none_iff] at hgl
    | some e => rfl

theorem prevAt_none (a : List Char) : prevAt none a = a.getLast? := by
  unfold prevAt
  cases a.getLast? <;> rfl

theorem matchesHere_iff (c0 : Char) (tl : List Char)
    (hw : ∀ c ∈ c0 :: tl, isWordB c = true) (prev : Option Char) (s : List Char) :
    matchesHere prev (c0 :: tl) s = true ↔
      ∃ b, s = (c0 :: tl) ++ b ∧ wordOpt prev = false ∧ wordOpt b.head? = false := by
  have hc0 : isWordB c0 = true := hw c0 (List.mem_cons_self _ _)
  obtain ⟨lc, hgl⟩ : ∃ lc, (c0 :: tl).getLast? = some lc := by
    cases hgl : (c0 :: tl).getLast? with
    | none => simp [List.getLast?_eq_none_iff] at hgl
    | some lc => exact ⟨lc, rfl⟩
  have hlc : isWordB lc = true :=
    hw lc (List.mem_of_mem_getLast? (by rw [hgl]; exact Option.mem_some_iff.mpr rfl))
  show (List.isPrefixOf _ _ && boundaryB prev (some c0) &&
      boundaryB (c0 :: tl).getLast? ((s.drop (c0 :: tl).length).head?)) = true ↔ _
  rw [hgl]
  constructor
  · intro h
    simp only [Bool.and_eq_true] at h
    obtain ⟨⟨hpre, hb1⟩, hb2⟩ := h
    obtain ⟨b, hb⟩ := List.isPrefixOf_iff_prefix.mp hpre
    have hdrop : (s.drop (c0 :: tl).length) = b := by rw [← hb]; exact List.drop_left _ _
    refine ⟨b, hb.symm, ?_, ?_⟩
    · unfold boundaryB at hb1
      rw [show wordOpt (some c0) = true from hc0] at hb1
      cases hwp : wordOpt prev
      · rfl
      · rw [hwp] at hb1; simp at hb1
    · unfold boundaryB at hb2
      rw [hdrop, show wordOpt (some lc) = true from hlc] at hb2
      cases hwb : wordOpt b.head?
      · rfl
      · rw [hwb] at hb2; simp at hb2
  · rintro ⟨b, rfl, h1, h2⟩
    have hpre : List.isPrefixOf (c0 :: tl) ((c0 :: tl) ++ b) = true :=
      isPrefixOf_append_self _ _
    have hdrop : (((c0 :: tl) ++ b).drop (c0 :: tl).length) = b := List.drop_left _ _
    simp only [Bool.and_eq_true]
    refine ⟨⟨hpre, ?_⟩, ?_⟩
    · unfold boundaryB
      rw [show wordOpt (some c0) = true from hc0, h1]
      rfl
    · unfold boundaryB
      rw [hdrop, show wordOpt (some lc) = true from hlc, h2]
      rfl

theorem wwSearch_iff (c0 : Char) (tl : List Char)
    (hw : ∀ c ∈ c0 :: tl, isWordB c = true) :
    ∀ (s : List Char) (prev : Option Char),
      wwSearch (c0 :: tl) prev s = true ↔
        ∃ a b, s = a ++ (c0 :: tl) ++ b ∧ wordOpt (prevAt prev a) = false ∧
          wordOpt b.head? = false := by
  intro s
  induction s with
  | nil =>
    intro prev
    constructor
    · intro h
      exfalso
      simp [wwSearch, matchesHere, List.isPrefixOf] at h
    · rintro ⟨a, b, hab, _, _⟩
      exfalso
      cases a <;> simp at hab
  | cons x xs ih =>
    intro prev
    show (matchesHere prev (c0 :: tl) (x :: xs) || wwSearch (c0 :: tl) (some x) xs) = true ↔ _
    rw [Bool.or_eq_true, matchesHere_iff c0 tl hw prev (x :: xs), ih (some x)]
    constructor
    · rintro (⟨b, hb, h1, h2⟩ | ⟨ap, b, hab, h1, h2⟩)
      · exact ⟨[], b, by simpa using hb, by simpa [prevAt] using h1, h2⟩
      · refine ⟨x :: ap, b, by simp [hab], ?_, h2⟩
        rw [prevAt_cons]
        exact h1
    · rintro ⟨a, b, hab, h1, h2⟩
      cases a with
      | nil =>
        left
        exact ⟨b, by simpa using hab, by simpa [prevAt] using h1, h2⟩
      | cons y ap =>
        right
        simp only [List.cons_append] at hab
        injection hab with hxy hxs
        refine ⟨ap, b, hxs, ?_, h2⟩
        rw [← hxy] at h1
        rw [prevAt_cons] at h1
        exact h1

/-- C7 — Whole-word deterministic matching: for a vocabulary tag whose
`#`-stripped lowercased form is a non-empty word-character string, the
deterministic test succeeds exactly when that form occurs in the
lowercased content with no word character adjacent on either side; in
particular `ml` matches `I study ml today` but not
`I study html today`. -/
theorem C7_whole_word_matching :
    (∀ tag content : List Char,
      (stripHash tag).map Char.toLower ≠ [] →
      (∀ c ∈ (stripHash tag).map Char.toLower, isWordB c = true) →
      (tagMatchesDet tag content = true ↔
        wholeWordOccurs ((stripHash tag).map Char.toLower)
          (content.map Char.toLower))) ∧
    tagMatchesDet ['m', 'l']
      ['I', ' ', 's', 't', 'u', 'd', 'y', ' ', 'm', 'l', ' ',
       't', 'o', 'd', 'a', 'y'] = true ∧
    tagMatchesDet ['m', 'l']
      ['I', ' ', 's', 't', 'u', 'd', 'y', ' ', 'h', 't', 'm', 'l', ' ',
       't', 'o', 'd', 'a', 'y'] = false := by
  refine ⟨?_, by decide, by decide⟩
  intro tag content hne hw
  obtain ⟨c0, tl, hct⟩ := List.exists_cons_of_ne_nil hne
  rw [hct] at hw
  unfold tagMatchesDet wholeWordMatch
  rw [hct, wwSearch_iff c0 tl hw (content.map Char.toLower) none]
  unfold wholeWordOccurs
  constructor
  · rintro ⟨a, b, h1, h2, h3⟩
    rw [prevAt_none] at h2
    exact ⟨a, b, h1, h2, h3⟩
  · rintro ⟨a, b, h1, h2, h3⟩
    rw [← prevAt_none] at h2
    exact ⟨a, b, h1, h2, h3⟩

theorem C7_whole_word_matching_witness :
    tagMatchesDet ['m', 'l'] ['x', ' ', 'm', 'l'] = true ∧
    wholeWordOccurs ['m', 'l'] ['x', ' ', 'm', 'l'] :=
  ⟨by decide,
   ((C7_whole_word_matching).1 ['m', 'l'] ['x', ' ', 'm', 'l']
      (by decide) (by decide)).mp (by decide)⟩

/-! ## Claim C3: lemmas about the tagged-section removal -/

theorem findSub_cons_neg (n : List Char) (c : Char) (cs : List Char)
    (h : n.isPrefixOf (c :: cs) = false) :
    findSub n (c :: cs) = (findSub n cs).map (· + 1) := by
  simp [findSub, h]

theorem findSub_cons_pos (n : List Char) (c : Char) (cs : List Char)
    (h : n.isPrefixOf (c :: cs) = true) :
    findSub n (c :: cs) = some 0 := by
  simp [findSub, h]

theorem findSub_append_head (h : Char) (t : List Char) (A B : List Char)
    (hA : ∀ a ∈ A, a ≠ h) :
    findSub (h :: t) (A ++ B) = (findSub (h :: t) B).map (· + A.length) := by
  induction A with
  | nil =>
    simp only [List.nil_append, List.length_nil]
    cases findSub (h :: t) B <;> simp
  | cons a A2 ih =>
    have ha : a ≠ h := hA a (List.mem_cons_self _ _)
    have hba : (h == a) = false := beq_eq_false_iff_ne.mpr (Ne.symm ha)
    have hpre : (h :: t).isPrefixOf (a :: (A2 ++ B)) = false := by
      simp [List.isPrefixOf, hba]
    have ih2 := ih fun x hx => hA x (List.mem_cons_of_mem a hx)
    rw [List.cons_append, findSub_cons_neg _ _ _ hpre, ih2]
    cases findSub (h :: t) B with
    | none => rfl
    | some j => simp only [Option.map_some', List.length_cons, Nat.add_assoc]

theorem notPrefix_d1 (u rest : List Char) (hu : '\n' ∉ u) :
    List.isPrefixOf ['-', '-', '-', '\n', '\n']
      (u ++ '\n' :: '-' :: '-' :: '-' :: '\n' :: '\n' :: rest) = false := by
  match u with
  | [] => simp [List.isPrefixOf]
  | [a] => simp [List.isPrefixOf]
  | [a, b] => simp [List.isPrefixOf]
  | [a, b, c] => simp [List.isPrefixOf]
  | a :: b :: c :: d :: u2 =>
    have hd : d ≠ '\n' := by
      intro hh
      exact hu (by simp [hh])
    have hdb : ('\n' == d) = false := beq_eq_false_iff_ne.mpr (Ne.symm hd)
    simp [List.isPrefixOf, hdb]

theorem find_d1 (u rest : List Char) (hu : '\n' ∉ u) :
    findSub ['-', '-', '-', '\n', '\n']
      (u ++ '\n' :: '-' :: '-' :: '-' :: '\n' :: '\n' :: rest) =
      some (u.length + 1) := by
  induction u with
  | nil =>
    simp only [List.nil_append, findSub]
    simp [List.isPrefixOf, findSub]
  | cons c u2 ih =>
    have hu2 : '\n' ∉ u2 := fun hh => hu (List.mem_cons_of_mem c hh)
    have hnp := notPrefix_d1 (c :: u2) rest hu
    simp only [List.cons_append] at hnp
    rw [List.cons_append, findSub_cons_neg _ _ _ hnp, ih hu2]
    simp only [Option.map_some', List.length_cons, Nat.add_assoc]

theorem removeTaggedAux_of_matchAt (s r : List Char) (hs : s ≠ [])
    (h : matchTaggedAt s = some r) : removeTaggedAux s = some r := by
  cases s with
  | nil => exact absurd rfl hs
  | cons c cs => simp [removeTaggedAux, h]

theorem matchTaggedAt_assembled (ts sm p : List Char) (hts : '\n' ∉ ts)
    (hsm : '\n' ∉ sm) :
    matchTaggedAt (assembleTagged ts sm p) =
      some (p.dropWhile (· == '\n')) := by
  have hmk : markerL.isPrefixOf (assembleTagged ts sm p) = true := by
    unfold assembleTagged
    exact isPrefixOf_append_self _ _
  have hdrop15 : (assembleTagged ts sm p).drop 15 =
      (' ' :: ts) ++ ('\n' :: '-' :: '-' :: '-' :: '\n' :: '\n' ::
        (sm ++ ('\n' :: '\n' :: '-' :: '-' :: '-' :: '\n' :: '\n' :: p))) := by
    unfold assembleTagged
    rw [List.drop_left' (show markerL.length = 15 from rfl)]
    simp
  simp only [matchTaggedAt, hmk, if_true, hdrop15]
  have hu : '\n' ∉ ' ' :: ts := by
    intro hh
    rcases List.mem_cons.mp hh with h1 | h1
    · exact absurd h1 (by decide)
    · exact hts h1
  rw [find_d1 (' ' :: ts) _ hu]
  simp only [Option.some_bind, List.length_cons]
  have hdropj : ((' ' :: ts) ++ ('\n' :: '-' :: '-' :: '-' :: '\n' :: '\n' ::
      (sm ++ ('\n' :: '\n' :: '-' :: '-' :: '-' :: '\n' :: '\n' :: p)))).drop
        (ts.length + 1 + 1 + 5) =
      sm ++ ('\n' :: '\n' :: '-' :: '-' :: '-' :: '\n' :: '\n' :: p) := by
    have hsh : (' ' :: ts) ++ ('\n' :: '-' :: '-' :: '-' :: '\n' :: '\n' ::
        (sm ++ ('\n' :: '\n' :: '-' :: '-' :: '-' :: '\n' :: '\n' :: p))) =
        ((' ' :: ts) ++ ['\n', '-', '-', '-', '\n', '\n']) ++
          (sm ++ ('\n' :: '\n' :: '-' :: '-' :: '-' :: '\n' :: '\n' :: p)) := by
      simp
    rw [hsh, List.drop_left' (by simp)]
  rw [hdropj]
  have hsm2 : ∀ a ∈ sm, a ≠ '\n' := fun a ha hh => hsm (hh ▸ ha)
  rw [show (['\n', '\n', '-', '-', '-', '\n'] : List Char) =
      '\n' :: ['\n', '-', '-', '-', '\n'] from rfl,
    findSub_append_head '\n' ['\n', '-', '-', '-', '\n'] sm _ hsm2]
  have hfs2 : findSub ('\n' :: ['\n', '-', '-', '-', '\n'])
      ('\n' :: '\n' :: '-' :: '-' :: '-' :: '\n' :: '\n' :: p) = some 0 := by
    apply findSub_cons_pos
    simp [List.isPrefixOf]
  rw [hfs2]
  simp only [Option.map_some', Option.some_bind, Nat.zero_add]
  have hdropq : (sm ++ ('\n' :: '\n' :: '-' :: '-' :: '-' :: '\n' :: '\n' :: p)).drop
      (sm.length + 5) = '\n' :: '\n' :: p := by
    have hsh : sm ++ ('\n' :: '\n' :: '-' :: '-' :: '-' :: '\n' :: '\n' :: p) =
        (sm ++ ['\n', '\n', '-', '-', '-']) ++ ('\n' :: '\n' :: p) := by
      simp
    rw [hsh, List.drop_left' (by simp)]
  rw [hdropq]
  simp


theorem dropWhile_dropWhile_of_imp (p q : Char → Bool)
    (hpq : ∀ c, q c = true → p c = true) (l : List Char) :
    (l.dropWhile q).dropWhile p = l.dropWhile p := by
  induction l with
  | nil => rfl
  | cons c cs ih =>
    by_cases hq : q c = true
    · rw [List.dropWhile_cons_of_pos hq, ih, List.dropWhile_cons_of_pos (hpq c hq)]
    · rw [List.dropWhile_cons_of_neg hq]

theorem trimL_dropNL (C : List Char) :
    trimL (C.dropWhile (· == '\n')) = trimL C := by
  unfold trimL
  refine dropWhile_dropWhile_of_imp isWS (· == '\n') (fun c hc => ?_) C
  have hcc : c = '\n' := by simpa using hc
  rw [hcc]
  decide

theorem exists_decomp_trimL (l : List Char) : ∃ a, l = a ++ trimL l :=
  ⟨l.takeWhile isWS, (List.takeWhile_append_dropWhile isWS l).symm⟩

theorem exists_decomp_trimR (l : List Char) : ∃ b, l = trimR l ++ b := by
  refine ⟨(l.reverse.takeWhile isWS).reverse, ?_⟩
  have h1 : l.reverse.takeWhile isWS ++ l.reverse.dropWhile isWS = l.reverse :=
    List.takeWhile_append_dropWhile isWS l.reverse
  calc l = l.reverse.reverse := (List.reverse_reverse l).symm
    _ = (l.reverse.takeWhile isWS ++ l.reverse.dropWhile isWS).reverse := by rw [h1]
    _ = (l.reverse.dropWhile isWS).reverse ++ (l.reverse.takeWhile isWS).reverse := by
          rw [List.reverse_append]
    _ = trimR l ++ (l.reverse.takeWhile isWS).reverse := rfl

theorem substringOf_trimBoth_self (C : List Char) : substringOf (trimBoth C) C := by
  obtain ⟨a, ha⟩ := exists_decomp_trimL C
  obtain ⟨b, hb⟩ := exists_decomp_trimR (trimL C)
  refine ⟨a, b, ?_⟩
  conv_lhs => rw [ha, hb]
  simp [trimBoth, List.append_assoc]

theorem substringOf_trimBoth_dropNL (C : List Char) :
    substringOf (trimBoth C) (C.dropWhile (· == '\n')) := by
  obtain ⟨a, ha⟩ := exists_decomp_trimL (C.dropWhile (· == '\n'))
  obtain ⟨b, hb⟩ := exists_decomp_trimR (trimL C)
  refine ⟨a, b, ?_⟩
  rw [trimL_dropNL] at ha
  conv_lhs => rw [ha, hb]
  simp [trimBoth, List.append_assoc]

theorem trimBoth_trimL (C : List Char) : trimBoth (trimL C) = trimBoth C := by
  unfold trimBoth
  have h : trimL (trimL C) = trimL C :=
    dropWhile_dropWhile_of_imp isWS isWS (fun _ h => h) C
  rw [h]

theorem mem_of_mem_trimBoth {c : Char} {l : List Char} (h : c ∈ trimBoth l) :
    c ∈ l := by
  unfold trimBoth trimR trimL at h
  rw [List.mem_reverse] at h
  have h2 := List.dropWhile_subset isWS h
  rw [List.mem_reverse] at h2
  exact List.dropWhile_subset isWS h2

theorem trimL_of_hlhr (l : List Char) (h : hasLeadingHashtagRun l = true) :
    trimL l = l := by
  cases l with
  | nil => simp [hasLeadingHashtagRun] at h
  | cons c1 r1 =>
    cases r1 with
    | nil => simp [hasLeadingHashtagRun] at h
    | cons c2 r2 =>
      simp only [hasLeadingHashtagRun, Bool.and_eq_true, beq_iff_eq] at h
      unfold trimL
      rw [List.dropWhile_cons_of_neg (by rw [h.1]; decide)]

theorem tagRunStrip_noop (l : List Char) (h : hasLeadingHashtagRun l = false) :
    tagRunStrip l = l := by
  cases l with
  | nil => simp [tagRunStrip]
  | cons c r =>
    cases r with
    | nil => simp [tagRunStrip]
    | cons d r2 =>
      simp only [hasLeadingHashtagRun] at h
      rw [tagRunStrip]
      simp [h]


theorem ne_dash_of_word {c : Char} (h : isWordB c = true) : c ≠ '-' := by
  intro hh
  rw [hh] at h
  exact absurd h (by decide)

theorem joinTags_cons_shape (t : List Char) (ts : List (List Char)) :
    ∃ X, joinTags (t :: ts) = t ++ X := by
  cases ts with
  | nil => exact ⟨[], by simp [joinTags]⟩
  | cons t2 ts2 => exact ⟨' ' :: joinTags (t2 :: ts2), rfl⟩

theorem normalizeTag_shape (v : List Char) (hv : validTag v) :
    ∃ w, normalizeTag v = '#' :: w ∧ w ≠ [] ∧ ∀ c ∈ w, isWordB c = true := by
  unfold validTag at hv
  cases v with
  | nil => simp [stripHash] at hv
  | cons c rest =>
    by_cases hc : (c == '#') = true
    · have hce : c = '#' := by simpa using hc
      refine ⟨rest, ?_, ?_, ?_⟩
      · simp [normalizeTag, hc, hce]
      · have := hv.1
        simpa [stripHash, hc] using this
      · intro x hx
        exact hv.2 x (by simpa [stripHash, hc] using hx)
    · refine ⟨c :: rest, ?_, by simp, ?_⟩
      · simp [normalizeTag, hc]
      · intro x hx
        exact hv.2 x (by simpa [stripHash, hc] using hx)

theorem matchedTags_tagListOK (C : List Char) (V : List (List Char))
    (hV : ∀ v ∈ V, validTag v) : tagListOK (matchedTags C V) := by
  intro t ht
  rcases foldl_detStep_mem C V [] t ht with h | ⟨v, hv, rfl⟩
  · simp at h
  · exact normalizeTag_shape v (hV v hv)

theorem joinTags_no_dash (A : List (List Char)) (hA : tagListOK A) :
    ∀ c ∈ joinTags A, c ≠ '-' := by
  induction A with
  | nil => intro c hc; simp [joinTags] at hc
  | cons t A2 ih =>
    intro c hc
    obtain ⟨w, htw, hwne, hwall⟩ := hA t (List.mem_cons_self _ _)
    have hmem_t : ∀ x ∈ t, x ≠ '-' := by
      intro x hx
      rw [htw] at hx
      rcases List.mem_cons.mp hx with h1 | h1
      · rw [h1]; decide
      · exact ne_dash_of_word (hwall x h1)
    cases A2 with
    | nil =>
      simp only [joinTags] at hc
      exact hmem_t c hc
    | cons t2 A3 =>
      have hj : joinTags (t :: t2 :: A3) = t ++ ' ' :: joinTags (t2 :: A3) := rfl
      rw [hj] at hc
      rcases List.mem_append.mp hc with h1 | h1
      · exact hmem_t c h1
      · rcases List.mem_cons.mp h1 with h2 | h2
        · rw [h2]; decide
        · exact ih (fun x hx => hA x (List.mem_cons_of_mem t hx)) c h2

theorem isAlreadyTagged_tagRun (A : List (List Char)) (hA : tagListOK A)
    (C : List Char) :
    isAlreadyTagged (joinTags A ++ ' ' :: C) = isAlreadyTagged C := by
  unfold isAlreadyTagged containsSub
  have hsh : joinTags A ++ ' ' :: C = (joinTags A ++ [' ']) ++ C := by simp
  have hne : ∀ a ∈ joinTags A ++ [' '], a ≠ '-' := by
    intro a ha
    rcases List.mem_append.mp ha with h1 | h1
    · exact joinTags_no_dash A hA a h1
    · have : a = ' ' := by simpa using h1
      rw [this]; decide
  rw [hsh, show markerL = '-' ::
      ['-', '-', '\n', 'L', 'L', 'M', '-', 't', 'a', 'g', 'g', 'e', 'd', ':']
      from rfl, findSub_append_head '-' _ _ _ hne]
  cases findSub ('-' ::
      ['-', '-', '\n', 'L', 'L', 'M', '-', 't', 'a', 'g', 'g', 'e', 'd', ':']) C <;>
    simp


theorem joinTags_cons_cons (x y : List Char) (l : List (List Char)) :
    joinTags (x :: y :: l) = x ++ ' ' :: joinTags (y :: l) := rfl

theorem tagRunStrip_run : ∀ (A : List (List Char)), tagListOK A → A ≠ [] →
    ∀ (C : List Char), hasLeadingHashtagRun (trimL C) = false →
    tagRunStrip (joinTags A ++ ' ' :: C) = trimL C := by
  intro A
  induction A with
  | nil => intro _ hne; exact absurd rfl hne
  | cons t A2 ih =>
    intro hOK _ C hLead
    obtain ⟨w, htw, hwne, hwall⟩ := hOK t (List.mem_cons_self _ _)
    obtain ⟨w0, w1, rfl⟩ := List.exists_cons_of_ne_nil hwne
    have hw0 : isWordB w0 = true := hwall w0 (List.mem_cons_self _ _)
    have hw1 : ∀ c ∈ w1, isWordB c = true :=
      fun c hc => hwall c (List.mem_cons_of_mem _ hc)
    cases A2 with
    | nil =>
      have hj : joinTags [t] ++ ' ' :: C = '#' :: w0 :: (w1 ++ ' ' :: C) := by
        simp [joinTags, htw]
      rw [hj, tagRunStrip]
      rw [if_pos (by simp [hw0])]
      rw [List.dropWhile_append_of_pos hw1, List.dropWhile_cons_of_neg (by decide),
        List.dropWhile_cons_of_pos (by decide)]
      exact tagRunStrip_noop _ hLead
    | cons t2 A3 =>
      have hj : joinTags (t :: t2 :: A3) ++ ' ' :: C =
          '#' :: w0 :: (w1 ++ ' ' :: (joinTags (t2 :: A3) ++ ' ' :: C)) := by
        simp [joinTags_cons_cons, htw, List.cons_append, List.append_assoc]
      rw [hj, tagRunStrip, if_pos (by simp [hw0])]
      rw [List.dropWhile_append_of_pos hw1, List.dropWhile_cons_of_neg (by decide),
        List.dropWhile_cons_of_pos (by decide)]
      obtain ⟨v, htv, hvne, hvall⟩ :=
        hOK t2 (List.mem_cons_of_mem _ (List.mem_cons_self _ _))
      obtain ⟨X, hX⟩ := joinTags_cons_shape t2 A3
      have hhead : joinTags (t2 :: A3) ++ ' ' :: C = '#' :: (v ++ (X ++ ' ' :: C)) := by
        rw [hX, htv]; simp
      rw [hhead, List.dropWhile_cons_of_neg (by decide), ← hhead]
      exact ih (fun x hx => hOK x (List.mem_cons_of_mem t hx)) (by simp) C hLead


theorem taggedReplace_assembled (ts sm p : List Char) (hts : '\n' ∉ ts)
    (hsm : '\n' ∉ sm) :
    taggedReplace (assembleTagged ts sm p) = p.dropWhile (· == '\n') := by
  have hne : assembleTagged ts sm p ≠ [] := by
    unfold assembleTagged
    exact List.append_ne_nil_of_left_ne_nil (by decide) _
  unfold taggedReplace
  rw [removeTaggedAux_of_matchAt _ _ hne (matchTaggedAt_assembled ts sm p hts hsm)]
  rfl

theorem ollama_ok_out (m C : List Char) (V : List (List Char)) (r ts out : List Char)
    (hTag : isAlreadyTagged C = false)
    (hok : processContentWithOllama (some m) C V (some r) ts = Except.ok out) :
    (trimBoth r = [] ∧ out = addDeterministicTags C V) ∨
    (trimBoth r ≠ [] ∧ out = assembleTagged ts (trimBoth r) (addDeterministicTags C V)) := by
  by_cases hsm : trimBoth r = []
  · left
    refine ⟨hsm, ?_⟩
    simp only [processContentWithOllama, hTag, Bool.false_eq_true, if_false, hsm,
      ne_eq, not_true_eq_false, if_false, Except.ok.injEq] at hok
    exact hok.symm
  · right
    refine ⟨hsm, ?_⟩
    simp only [processContentWithOllama, hTag, Bool.false_eq_true, if_false, ne_eq,
      hsm, not_false_eq_true, if_true, Except.ok.injEq] at hok
    exact hok.symm


/-- C3 amended — Round-trip: for untagged content `C` with no leading
frontmatter block and no (possibly whitespace-preceded) leading hashtag
token, a vocabulary of `#word`-shaped tags, and a newline-free timestamp
and LLM response, untagging the synthesized output yields a string that
contains the whitespace-trimmed `C` verbatim as a substring (the
whitespace difference at the insertion boundary the claim allows for). -/
theorem C3_round_trip (C : List Char) (V : List (List Char)) (m r ts out : List Char)
    (hTag : isAlreadyTagged C = false)
    (hFM : frontMatterSplit C = none)
    (hLead : hasLeadingHashtagRun (trimL C) = false)
    (hV : ∀ v ∈ V, validTag v)
    (hts : '\n' ∉ ts)
    (hr : '\n' ∉ r)
    (hok : processContentWithOllama (some m) C V (some r) ts = Except.ok out) :
    substringOf (trimBoth C) (untagContent out).1 := by
  have hsm_mem : '\n' ∉ trimBoth r := fun hh => hr (mem_of_mem_trimBoth hh)
  have hAok : tagListOK (matchedTags C V) := matchedTags_tagListOK C V hV
  have hC_hlhr : hasLeadingHashtagRun C = false := by
    by_contra hcc
    rw [Bool.not_eq_false] at hcc
    rw [trimL_of_hlhr C hcc] at hLead
    rw [hLead] at hcc
    exact absurd hcc (by simp)
  have hdnl_hlhr : hasLeadingHashtagRun (C.dropWhile (· == '\n')) = false := by
    by_contra hcc
    rw [Bool.not_eq_false] at hcc
    have h1 := trimL_of_hlhr _ hcc
    rw [trimL_dropNL] at h1
    rw [← h1] at hcc
    rw [hLead] at hcc
    exact absurd hcc (by simp)
  by_cases hAe : matchedTags C V = []
  · have hdet : addDeterministicTags C V = C := by
      simp [addDeterministicTags, hAe]
    rcases ollama_ok_out m C V r ts out hTag hok with ⟨hsm, hout⟩ | ⟨hsm, hout⟩
    · rw [hout, hdet]
      have hres : untagContent C = (C, false) := by
        simp [untagContent, hTag, hC_hlhr]
      rw [hres]
      exact substringOf_trimBoth_self C
    · rw [hout, hdet]
      have htag2 : isAlreadyTagged (assembleTagged ts (trimBoth r) C) = true :=
        isAlreadyTagged_assembled _ _ _
      have hrep := taggedReplace_assembled ts (trimBoth r) C hts hsm_mem
      simp only [untagContent, htag2, if_true, hrep, hdnl_hlhr, Bool.false_eq_true,
        if_false]
      exact substringOf_trimBoth_dropNL C
  · have hdet : addDeterministicTags C V = joinTags (matchedTags C V) ++ ' ' :: C := by
      simp [addDeterministicTags, hAe, hFM]
    obtain ⟨t0, A2, hA⟩ := List.exists_cons_of_ne_nil hAe
    obtain ⟨w, htw, hwne, hwall⟩ := hAok t0 (by rw [hA]; exact List.mem_cons_self _ _)
    obtain ⟨w0, w1, rfl⟩ := List.exists_cons_of_ne_nil hwne
    obtain ⟨X, hX⟩ := joinTags_cons_shape t0 A2
    have hp_cons : joinTags (matchedTags C V) ++ ' ' :: C =
        '#' :: w0 :: (w1 ++ (X ++ ' ' :: C)) := by
      rw [hA, hX, htw]
      simp
    have hp_hlhr : hasLeadingHashtagRun (joinTags (matchedTags C V) ++ ' ' :: C) =
        true := by
      rw [hp_cons]
      simp [hasLeadingHashtagRun, hwall w0 (List.mem_cons_self _ _)]
    have hstrip : tagRunStrip (joinTags (matchedTags C V) ++ ' ' :: C) = trimL C :=
      tagRunStrip_run (matchedTags C V) hAok hAe C hLead
    rcases ollama_ok_out m C V r ts out hTag hok with ⟨hsm, hout⟩ | ⟨hsm, hout⟩
    · rw [hout, hdet]
      have htag2 : isAlreadyTagged (joinTags (matchedTags C V) ++ ' ' :: C) = false := by
        rw [isAlreadyTagged_tagRun _ hAok]
        exact hTag
      simp only [untagContent, htag2, Bool.false_eq_true, if_false, hp_hlhr, if_true]
      rw [hstrip, trimBoth_trimL]
      exact ⟨[], [], by simp⟩
    · rw [hout, hdet]
      have htag2 : isAlreadyTagged (assembleTagged ts (trimBoth r)
          (joinTags (matchedTags C V) ++ ' ' :: C)) = true :=
        isAlreadyTagged_assembled _ _ _
      have hrep := taggedReplace_assembled ts (trimBoth r)
        (joinTags (matchedTags C V) ++ ' ' :: C) hts hsm_mem
      have hdnl : (joinTags (matchedTags C V) ++ ' ' :: C).dropWhile (· == '\n') =
          joinTags (matchedTags C V) ++ ' ' :: C := by
        rw [hp_cons, List.dropWhile_cons_of_neg (by decide)]
      rw [hdnl] at hrep
      simp only [untagContent, htag2, if_true, hrep, hp_hlhr]
      rw [hstrip, trimBoth_trimL]
      exact ⟨[], [], by simp⟩


/-- C3 counterexample: for content carrying a frontmatter block, the
deterministic tags are inserted after the frontmatter, but untagging
strips hashtag runs only at the very start of the document, so the
inserted run survives inside the untagged result and the original
content is not recovered — not even up to whitespace differences. -/
theorem C3_cex :
    processContentWithOllama (some ['m']) c3Content [['m', 'l']] (some ['S']) ['T'] =
      Except.ok (assembleTagged ['T'] ['S']
        (addDeterministicTags c3Content [['m', 'l']])) ∧
    ¬ substringOf c3Content
        (untagContent (assembleTagged ['T'] ['S']
          (addDeterministicTags c3Content [['m', 'l']]))).1 ∧
    ¬ substringOf (trimBoth c3Content)
        (untagContent (assembleTagged ['T'] ['S']
          (addDeterministicTags c3Content [['m', 'l']]))).1 := by
  refine ⟨by decide, ?_, ?_⟩ <;>
    · intro h
      have hc := (containsSub_iff _ _).mpr h
      revert hc
      decide

theorem C3_round_trip_witness :
    substringOf (trimBoth ['m', 'l', ' ', 'z'])
      (untagContent (assembleTagged ['T'] ['S']
        (addDeterministicTags ['m', 'l', ' ', 'z'] [['m', 'l']]))).1 :=
  C3_round_trip ['m', 'l', ' ', 'z'] [['m', 'l']] ['m'] ['S'] ['T']
    (assembleTagged ['T'] ['S'] (addDeterministicTags ['m', 'l', ' ', 'z'] [['m', 'l']]))
    (by decide) (by decide) (by decide)
    (by
      intro v hv
      rw [List.mem_singleton] at hv
      subst hv
      exact ⟨by decide, by decide⟩)
    (by decide) (by decide) (by decide)
